import Mathlib

/-!
Verification of the Vidya-Vaani document-indexing pipeline.

This file gives a shallow embedding, in Lean 4, of the Redis-backed job
queue (`lib/queue.ts`, class `IndexingQueue`), the distributed lock
manager and multi-key atomic operations (`lib/redis-atomic.ts`, classes
`RedisLockManager` and `AtomicOperations`), the text chunking routine of
the indexing worker (`worker/indexer.ts`, function `createChunks`), and
the batch progress tracker (`lib/progress-tracker.ts`, class
`ProgressTracker`).

Modelling conventions:
* Redis lists are Lean lists ordered exactly as `LRANGE key 0 -1` returns
  them: the head of the Lean list is the left end (the `LPUSH` end) and
  the last element is the right end (the `RPOP` / `RPUSH` end).
* Redis string keys written by `SET` are modelled as association lists
  with an overwriting `setKV`; hashes written by `HSET` are modelled as
  records merged field-wise, matching the partial-update semantics.
* `Date.now()` is passed in explicitly as a `now : Nat` parameter.
* The operations run under `withLock` / `withList`; the embedding gives
  the sequential semantics (the lock is available and the body runs),
  which is the semantics all the verified claims quantify over.

The file is organised as definitions first, then theorems.
-/

namespace VidyaVaani

/-! ## Definitions -/

/-! ### Association-list store helpers (model of Redis GET / SET / DEL) -/

/-- First-match lookup in an association list (model of a Redis `GET`). -/
def lookupKV {α : Type} (l : List (String × α)) (k : String) : Option α :=
  match l with
  | [] => none
  | p :: rest => if p.1 = k then some p.2 else lookupKV rest k

/-- Overwriting insert (model of a Redis `SET`, which replaces the value
stored under the key). -/
def setKV {α : Type} (l : List (String × α)) (k : String) (v : α) :
    List (String × α) :=
  (k, v) :: l.filter (fun p => !(p.1 = k : Bool))

/-! ### Data model of `lib/queue.ts` (`IndexingQueue`)

`IndexingJob` carries `jobId`, `docId`, `storagePath`, `metadata`,
`attempts`, `timestamp`, `priority` and `workerId`; the failure path adds
`error` and `failedAt` on top of the job (`FailedJob` below).  `attempts`
defaults to `0` at enqueue time, so it is a plain `Nat` here. -/

structure Metadata where
  filename : String
  size : Nat
  title : String
  uploadDate : String
deriving DecidableEq, Repr

structure Job where
  jobId : String
  docId : String
  storagePath : String
  metadata : Metadata
  attempts : Nat
  timestamp : Nat
  priority : Nat
  workerId : Option String
deriving DecidableEq, Repr

/-- A member of the `indexing_failed` list: the job spread together with
`error` and `failedAt` (`queue.ts`, `fail`, failure branch). -/
structure FailedJob where
  job : Job
  error : String
  failedAt : Nat
deriving DecidableEq, Repr

/-- A record stored under `indexing_result:<jobId>`: `complete` stores
`{result, docId, completedAt, status: "completed"}` and the terminal
branch of `fail` stores `{error, docId, failedAt, status: "failed"}`. -/
structure ResultRecord where
  payload : Option String
  error : Option String
  docId : String
  time : Nat
  status : String
deriving DecidableEq, Repr

/-- The fields of the `document:<docId>` hash touched by the queue:
`complete` merges `{status: "indexed", indexedAt}`, the terminal branch of
`fail` merges `{status: "failed", error, failedAt}`. -/
structure DocRecord where
  status : String
  error : Option String
  indexedAt : Option Nat
  failedAt : Option Nat
deriving DecidableEq, Repr

def emptyDoc : DocRecord :=
  { status := "", error := none, indexedAt := none, failedAt := none }

/-- The caller-supplied part of a job
(`Omit<IndexingJob, "jobId" | "timestamp" | "attempts">`). -/
structure JobInput where
  docId : String
  storagePath : String
  metadata : Metadata
  priority : Nat
deriving DecidableEq, Repr

/-- The Redis keys the queue uses, as one state record.  List order is
`LRANGE key 0 -1` order: head = `LPUSH` end, last = `RPOP`/`RPUSH` end. -/
structure QueueState where
  pending : List Job
  processing : List Job
  results : List (String × ResultRecord)
  failed : List FailedJob
  docs : List (String × DocRecord)
  workerStatus : List (String × (Nat × Nat))
deriving DecidableEq, Repr

def emptyState : QueueState :=
  { pending := [], processing := [], results := [], failed := [],
    docs := [], workerStatus := [] }

def MAX_JOBS_PER_WORKER : Nat := 5

/-- `enqueue` (`queue.ts:76-110`): builds the complete job with
`attempts = 0` and `timestamp = Date.now()` and `LPUSH`es it onto
`indexing_queue`.  The generated unique `jobId` and the clock are
explicit parameters of the model. -/
def enqueue (s : QueueState) (inp : JobInput) (jobId : String) (now : Nat) :
    QueueState :=
  let j : Job :=
    { jobId := jobId, docId := inp.docId, storagePath := inp.storagePath,
      metadata := inp.metadata, attempts := 0, timestamp := now,
      priority := inp.priority, workerId := none }
  { s with pending := j :: s.pending }

/-- The per-job mutation `dequeue` applies before moving a job to the
processing list (`queue.ts:135-137`): `attempts + 1`, `workerId`, and a
fresh `timestamp`. -/
def modifyJob (w : String) (now : Nat) (j : Job) : Job :=
  { j with attempts := j.attempts + 1, workerId := some w, timestamp := now }

/-- One iteration of the `dequeue` loop body (`queue.ts:127-149`): if the
pending list is empty the `withList` callback returns `null`; otherwise
the last element (the `RPOP` end) is mutated by `modifyJob`, `RPOP`ped
from `indexing_queue` and `LPUSH`ed onto `indexing_processing`. -/
def dequeueStep (s : QueueState) (w : String) (now : Nat) :
    Option (QueueState × Job) :=
  match s.pending.getLast? with
  | none => none
  | some j =>
    let j' := modifyJob w now j
    some ({ s with pending := s.pending.dropLast,
                   processing := j' :: s.processing }, j')

/-- The `for (let i = 0; i < MAX_JOBS_PER_WORKER; i++)` loop of `dequeue`
(`queue.ts:126-155`): stops early when the pending list runs out. -/
def dequeueLoop (w : String) (now : Nat) : Nat → QueueState → QueueState × List Job
  | 0, s => (s, [])
  | n + 1, s =>
    match dequeueStep s w now with
    | none => (s, [])
    | some (s', j') =>
      let r := dequeueLoop w now n s'
      (r.1, j' :: r.2)

/-- `dequeue(workerId)` (`queue.ts:117-185`): runs the loop, then (only
when at least one job was taken) records
`{activeJobs: jobs.length, lastHeartbeat: Date.now()}` for the worker in
the `worker_status` hash. -/
def dequeue (s : QueueState) (w : String) (now : Nat) : QueueState × List Job :=
  let r := dequeueLoop w now MAX_JOBS_PER_WORKER s
  if 0 < r.2.length then
    ({ r.1 with workerStatus := setKV r.1.workerStatus w (r.2.length, now) }, r.2)
  else
    (r.1, r.2)

/-- The linear scan of the processing list used by both `complete` and
`fail` (`queue.ts:207-218`, `queue.ts:291-302`): first job whose `jobId`
matches. -/
def findJob (l : List Job) (id : String) : Option Job :=
  l.find? (fun j => j.jobId = id)

/-- `LREM key 1 item` where `item` is the serialized first job whose
`jobId` matches: removes the first occurrence scanning from the head. -/
def removeFirstById (l : List Job) (id : String) : List Job :=
  match l with
  | [] => []
  | j :: rest => if j.jobId = id then rest else j :: removeFirstById rest id

/-- `complete(jobId, result)` (`queue.ts:193-268`): if the job is not in
the processing list this is a no-op returning `false`; otherwise the job
is removed from `indexing_processing`, a `"completed"` record is stored
under `indexing_result:<jobId>`, and the document hash is merged with
`{status: "indexed", indexedAt}`. -/
def complete (s : QueueState) (id : String) (payload : String) (now : Nat) :
    QueueState × Bool :=
  match findJob s.processing id with
  | none => (s, false)
  | some j =>
    let r : ResultRecord :=
      { payload := some payload, error := none, docId := j.docId,
        time := now, status := "completed" }
    let d0 := (lookupKV s.docs j.docId).getD emptyDoc
    ({ s with processing := removeFirstById s.processing id,
              results := setKV s.results id r,
              docs := setKV s.docs j.docId
                { d0 with status := "indexed", indexedAt := some now } },
     true)

/-- `fail(jobId, error, retry)` (`queue.ts:277-371`): if the job is not
in the processing list this is a no-op returning `false`.  Otherwise the
job is removed from `indexing_processing`; when `retry` is set and
`attempts < 3` the unmodified job is `RPUSH`ed back onto `indexing_queue`
(the comment in the source reads "Add to front of queue for faster
retry"); otherwise the job (with `error` and `failedAt`) is `LPUSH`ed
onto `indexing_failed`, a `"failed"` record is stored under
`indexing_result:<jobId>`, and the document hash is merged with
`{status: "failed", error, failedAt}`. -/
def failJob (s : QueueState) (id : String) (err : String) (retry : Bool)
    (now : Nat) : QueueState × Bool :=
  match findJob s.processing id with
  | none => (s, false)
  | some j =>
    let s1 := { s with processing := removeFirstById s.processing id }
    if retry && decide (j.attempts < 3) then
      ({ s1 with pending := s1.pending ++ [j] }, true)
    else
      let r : ResultRecord :=
        { payload := none, error := some err, docId := j.docId,
          time := now, status := "failed" }
      let d0 := (lookupKV s.docs j.docId).getD emptyDoc
      ({ s1 with failed := { job := j, error := err, failedAt := now } :: s1.failed,
                 results := setKV s1.results id r,
                 docs := setKV s1.docs j.docId
                   { d0 with status := "failed", error := some err,
                             failedAt := some now } },
       true)

/-! ### Job locations and reachable queue states -/

def inPendingB (s : QueueState) (id : String) : Bool :=
  s.pending.any (fun j => j.jobId = id)

def inProcessingB (s : QueueState) (id : String) : Bool :=
  s.processing.any (fun j => j.jobId = id)

def inFailedB (s : QueueState) (id : String) : Bool :=
  s.failed.any (fun f => f.job.jobId = id)

/-- The job has any record (completed or failed) under
`indexing_result:<jobId>`. -/
def inResultsB (s : QueueState) (id : String) : Bool :=
  (lookupKV s.results id).isSome

/-- The job has a record under `indexing_result:<jobId>` whose `status`
is `"completed"`. -/
def inCompletedResultB (s : QueueState) (id : String) : Bool :=
  match lookupKV s.results id with
  | some r => r.status = "completed"
  | none => false

def boolCount (l : List Bool) : Nat := (l.filter id).length

/-- Claim C1 exactly as stated: a job id occupies at most one of
pending, processing, result store (any status), failed list. -/
def strictExclusive (s : QueueState) (id : String) : Prop :=
  boolCount [inPendingB s id, inProcessingB s id,
             inResultsB s id, inFailedB s id] ≤ 1

/-- Exclusivity with the result-store location read as
"completed-status result record": the amended form of C1. -/
def exclusive (s : QueueState) (id : String) : Prop :=
  boolCount [inPendingB s id, inProcessingB s id,
             inCompletedResultB s id, inFailedB s id] ≤ 1

/-- Freshness of a generated job id
(`job_${Date.now()}_${Math.random()...}` is assumed unique). -/
def freshId (s : QueueState) (id : String) : Prop :=
  inPendingB s id = false ∧ inProcessingB s id = false ∧
  inResultsB s id = false ∧ inFailedB s id = false

/-- States reachable from the empty store by sequential runs of the four
queue operations. -/
inductive Reachable : QueueState → Prop where
  | init : Reachable emptyState
  | enq {s : QueueState} (inp : JobInput) (id : String) (now : Nat) :
      Reachable s → freshId s id → Reachable (enqueue s inp id now)
  | deq {s : QueueState} (w : String) (now : Nat) :
      Reachable s → Reachable (dequeue s w now).1
  | comp {s : QueueState} (id : String) (payload : String) (now : Nat) :
      Reachable s → Reachable (complete s id payload now).1
  | flr {s : QueueState} (id : String) (err : String) (retry : Bool) (now : Nat) :
      Reachable s → Reachable (failJob s id err retry now).1

/-! ### The queue invariant -/

/-- Ids of jobs in the two live lists, pending first. -/
def liveIds (s : QueueState) : List String :=
  (s.pending ++ s.processing).map Job.jobId

/-- The inductive invariant, phrased over the components the operations
touch: live ids are distinct, a live job has no result record and no
failed-list entry, and a completed-status result record never coexists
with a failed-list entry. -/
def InvOn (live : List String) (results : List (String × ResultRecord))
    (failed : List FailedJob) : Prop :=
  live.Nodup ∧
  (∀ id ∈ live, lookupKV results id = none) ∧
  (∀ id ∈ live, failed.any (fun f => f.job.jobId = id) = false) ∧
  (∀ p ∈ results, p.2.status = "completed" →
    failed.any (fun f => f.job.jobId = p.1) = false)

def Inv (s : QueueState) : Prop := InvOn (liveIds s) s.results s.failed

/-! ### Concrete states used to evaluate the queue claims -/

def exMeta : Metadata :=
  { filename := "notes.txt", size := 12, title := "Notes",
    uploadDate := "2024-01-01" }

def exInput : JobInput :=
  { docId := "d1", storagePath := "docs/d1", metadata := exMeta, priority := 0 }

/-- enqueue `j1`, dequeue it, then fail it terminally. -/
def c1State : QueueState :=
  (failJob (dequeue (enqueue emptyState exInput "j1" 0) "w1" 1).1
    "j1" "boom" false 2).1

/-- The postcondition of `fail(jobId, err, retry)` on a job found in the
processing list, for an arbitrary `retry` flag, split on the source's
`retry && attempts < 3` guard.  The re-enqueue branch (taken exactly when
`retry` is set and `attempts < 3`) re-appends the unmodified job
(attempts preserved) and leaves the terminal stores untouched; the
terminal branch (`attempts ≥ 3`, or `retry = false`) leaves pending
untouched, stores a `"failed"` result record, prepends to the failed
list and marks the document failed with the error attached. -/
def failOutcomeSpec (s : QueueState) (id err : String) (retry : Bool)
    (now : Nat) (j : Job) : Prop :=
  (failJob s id err retry now).2 = true ∧
  (failJob s id err retry now).1.processing = removeFirstById s.processing id ∧
  (if retry = true ∧ j.attempts < 3 then
      (failJob s id err retry now).1.pending = s.pending ++ [j] ∧
      (failJob s id err retry now).1.results = s.results ∧
      (failJob s id err retry now).1.failed = s.failed ∧
      (failJob s id err retry now).1.docs = s.docs
    else
      (failJob s id err retry now).1.pending = s.pending ∧
      lookupKV (failJob s id err retry now).1.results id =
        some { payload := none, error := some err, docId := j.docId,
               time := now, status := "failed" } ∧
      (failJob s id err retry now).1.failed =
        { job := j, error := err, failedAt := now } :: s.failed ∧
      lookupKV (failJob s id err retry now).1.docs j.docId =
        some { (lookupKV s.docs j.docId).getD emptyDoc with
               status := "failed", error := some err, failedAt := some now })

/-- A job that has already been attempted three times, sitting in the
processing list. -/
def wJob3 : Job :=
  { jobId := "jw", docId := "dw", storagePath := "docs/dw", metadata := exMeta,
    attempts := 3, timestamp := 0, priority := 0, workerId := some "w0" }

def wState3 : QueueState := { emptyState with processing := [wJob3] }

/-- A pending job with a recognisable `timestamp` (5). -/
def jC3 : Job :=
  { jobId := "a", docId := "d", storagePath := "docs/d", metadata := exMeta,
    attempts := 0, timestamp := 5, priority := 0, workerId := none }

def sC3 : QueueState := { emptyState with pending := [jC3] }

/-- A fresh pending job `a` alongside a processing job `b`. -/
def jC4a : Job :=
  { jobId := "a", docId := "da", storagePath := "docs/da", metadata := exMeta,
    attempts := 0, timestamp := 0, priority := 0, workerId := none }

def jC4b : Job :=
  { jobId := "b", docId := "db", storagePath := "docs/db", metadata := exMeta,
    attempts := 1, timestamp := 1, priority := 0, workerId := some "w0" }

def sC4 : QueueState :=
  { emptyState with pending := [jC4a], processing := [jC4b] }

/-- `sC4` after `fail("b", e, retry := true)` re-enqueues `b`. -/
def sC4retried : QueueState := (failJob sC4 "b" "e" true 10).1

/-! ### Model of `lib/redis-atomic.ts` (`RedisLockManager`, `AtomicOperations`)

`acquireLock` destructures `{ ttl = 30, retryDelay = 100, maxRetries = 5 }`
and runs `while (attempts < maxRetries) { SET NX; if ok return token;
sleep(retryDelay); attempts++ }`, returning `null` on exhaustion. -/

def DEFAULT_MAX_RETRIES : Nat := 5

/-- Observable trace of one `acquireLock` call: at which attempt index
the `SET NX` succeeded (if ever), how many `SET NX` attempts were made in
total, and how many `retryDelay` sleeps were performed. -/
structure AcquireTrace where
  acquiredAt : Option Nat
  setAttempts : Nat
  sleeps : Nat
deriving DecidableEq, Repr

/-- The `while (attempts < maxRetries)` loop of `acquireLock`
(`redis-atomic.ts:336-350`), with `avail i` the outcome of the `i`-th
conditional `SET key token NX EX ttl`.  `fuel` is the loop variant
`maxRetries - attempts`; a failed attempt sleeps `retryDelay` and then
increments `attempts`. -/
def acquireGo (avail : Nat → Bool) (attempts : Nat) : Nat → AcquireTrace
  | 0 => { acquiredAt := none, setAttempts := attempts, sleeps := attempts }
  | fuel + 1 =>
    if avail attempts then
      { acquiredAt := some attempts, setAttempts := attempts + 1,
        sleeps := attempts }
    else
      acquireGo avail (attempts + 1) fuel

/-- `acquireLock(key, {ttl, retryDelay, maxRetries})`
(`redis-atomic.ts:322-353`), abstracted over the per-attempt store
outcome. -/
def acquireLock (maxRetries : Nat) (avail : Nat → Bool) : AcquireTrace :=
  acquireGo avail 0 maxRetries

/-- `lock:<key>` (`RedisLockManager.getLockKey`). -/
def lockKey (k : String) : String := "lock:" ++ k

/-- The lock store: held lock keys with their tokens.  Tokens are
modelled as naturals (the source draws random strings). -/
abbrev LockState := List (String × Nat)

/-- Sequential model of one `acquireLock` call made by
`withMultipleKeys`: between the retries of a single sequential call the
store does not change, so the retry loop collapses to its first `SET NX`
attempt, which succeeds exactly when the lock key is absent. -/
def acquireLockS (st : LockState) (k : String) (tok : Nat) : Option LockState :=
  if st.any (fun p => p.1 = lockKey k) then none
  else some ((lockKey k, tok) :: st)

/-- `releaseLock` (`redis-atomic.ts:361-372`): read the stored token,
refuse if it differs, otherwise `DEL lock:<key>`. -/
def releaseLockS (st : LockState) (k : String) (tok : Nat) : LockState × Bool :=
  if lookupKV st (lockKey k) = some tok then
    (st.filter (fun p => !(p.1 = lockKey k : Bool)), true)
  else (st, false)

/-- `const sortedKeys = [...keys].sort()` (`redis-atomic.ts:527`) — the
default JS sort compares strings lexicographically. -/
def sortKeys (keys : List String) : List String :=
  List.insertionSort (· ≤ ·) keys

/-- Result of the acquisition loop of `withMultipleKeys`: final store,
the `locks` token array, the keys attempted in order, the keys acquired
in order, and whether every key was acquired. -/
structure AcquireRun where
  state : LockState
  locks : List Nat
  attempted : List String
  acquiredKeys : List String
  ok : Bool
deriving Repr

/-- The acquisition loop of `withMultipleKeys`
(`redis-atomic.ts:533-542`): walk the sorted keys in order and `break` on
the first failed acquisition.  Tokens are successive naturals from
`tokBase`. -/
def wmkAcquire (st : LockState) (tokBase : Nat) : List String → AcquireRun
  | [] =>
    { state := st, locks := [], attempted := [], acquiredKeys := [], ok := true }
  | k :: rest =>
    match acquireLockS st k tokBase with
    | none =>
      { state := st, locks := [], attempted := [k], acquiredKeys := [],
        ok := false }
    | some st' =>
      let r := wmkAcquire st' (tokBase + 1) rest
      { state := r.state, locks := tokBase :: r.locks,
        attempted := k :: r.attempted, acquiredKeys := k :: r.acquiredKeys,
        ok := r.ok }

/-- The `finally` release loop (`redis-atomic.ts:549-553`):
`for (let i = lastLockIndex; i >= 0; i--)
releaseLock(sortedKeys[i], locks[i])` — it visits the acquired
`(sortedKeys[i], locks[i])` pairs in reverse acquisition order, which is
the list this model receives. -/
def wmkRelease (st : LockState) : List (String × Nat) → LockState × List String
  | [] => (st, [])
  | (k, t) :: rest =>
    let st1 := (releaseLockS st k t).1
    let r := wmkRelease st1 rest
    (r.1, k :: r.2)

structure WmkResult where
  ran : Bool
  result : Option Unit
  state : LockState
  attempted : List String
  acquiredKeys : List String
  releases : List String
deriving Repr

/-- `withMultipleKeys(keys, fn)` (`redis-atomic.ts:521-556`): sort the
keys, acquire in order, run `fn` only when
`lastLockIndex === sortedKeys.length - 1` (equivalently: the `locks`
array covers every sorted key), and in `finally` release every acquired
lock in reverse order.  `fn` is abstracted to `() => Unit`, so `result`
records only whether it ran. -/
def withMultipleKeys (st : LockState) (keys : List String) (tokBase : Nat) :
    WmkResult :=
  let sorted := sortKeys keys
  let a := wmkAcquire st tokBase sorted
  let ran : Bool := decide (a.locks.length = sorted.length)
  let rel := wmkRelease a.state (((sorted.take a.locks.length).zip a.locks).reverse)
  { ran := ran, result := if ran then some () else none, state := rel.1,
    attempted := a.attempted, acquiredKeys := a.acquiredKeys,
    releases := rel.2 }

/-! ### Model of `worker/indexer.ts` `createChunks`

Text is a `List Char`; `String.prototype` operations are modelled on
character lists.  `createChunks(text, chunkSize)` walks the text with a
cursor `i`, picks a break point `endPos` near `i + chunkSize` (preferring
a `"\n\n"` paragraph break within 200 characters, then a sentence break
`". "`, `"! "`, `"? "` within 100 characters), pushes
`text.substring(i, endPos).trim()` and continues at `endPos`. -/

def isWS (c : Char) : Bool := c.isWhitespace

/-- `String.prototype.trim()`: strip leading and trailing whitespace. -/
def jsTrim (l : List Char) : List Char :=
  ((l.dropWhile isWS).reverse.dropWhile isWS).reverse

/-- The non-whitespace characters of a text, in order. -/
def filterNW (l : List Char) : List Char := l.filter (fun c => !(isWS c))

/-- `text.substring(i, j)` for `i ≤ j`. -/
def subChars (l : List Char) (i j : Nat) : List Char := (l.drop i).take (j - i)

/-- `pat` occurs in `text` starting at index `p`. -/
def occursAt (text pat : List Char) (p : Nat) : Bool :=
  decide ((text.drop p).take pat.length = pat)

/-- `text.lastIndexOf(pat, fromIdx)`: the largest occurrence start index
`≤ fromIdx`, or `-1` when there is none. -/
def jsLastIndexOf (text pat : List Char) (fromIdx : Nat) : Int :=
  match ((List.range (fromIdx + 1)).filter (occursAt text pat)).getLast? with
  | some p => (p : Int)
  | none => -1

def PAT_PARA : List Char := ['\n', '\n']

def PAT_PERIOD : List Char := ['.', ' ']

def PAT_BANG : List Char := ['!', ' ']

def PAT_QUESTION : List Char := ['?', ' ']

/-- `Math.max(text.lastIndexOf('. ', endPos), text.lastIndexOf('! ',
endPos), text.lastIndexOf('? ', endPos))` (`indexer.ts:136-140`). -/
def sentenceBreak (text : List Char) (endPos : Nat) : Int :=
  max (jsLastIndexOf text PAT_PERIOD endPos)
    (max (jsLastIndexOf text PAT_BANG endPos)
      (jsLastIndexOf text PAT_QUESTION endPos))

/-- The break-point adjustment of one loop iteration
(`indexer.ts:126-145`), given the cursor `i` and
`endPos = Math.min(i + chunkSize, text.length)`. -/
def chunkEndAt (text : List Char) (i endPos : Nat) : Nat :=
  if endPos < text.length then
    if jsLastIndexOf text PAT_PARA endPos > (i : Int) ∧
        jsLastIndexOf text PAT_PARA endPos > (endPos : Int) - 200 then
      (jsLastIndexOf text PAT_PARA endPos).toNat + 2
    else
      if sentenceBreak text endPos > (i : Int) ∧
          sentenceBreak text endPos > (endPos : Int) - 100 then
        (sentenceBreak text endPos).toNat + 2
      else endPos
  else endPos

def chunkEnd (text : List Char) (n i : Nat) : Nat :=
  chunkEndAt text i (min (i + n) text.length)

/-- The `while (i < text.length)` loop of `createChunks`
(`indexer.ts:123-149`), with explicit fuel.  For `chunkSize ≥ 1` every
iteration strictly increases `i` (see `chunkEnd_bounds`), so
`text.length + 1` units of fuel are never exhausted. -/
def createChunksAux (text : List Char) (n : Nat) : Nat → Nat → List (List Char)
  | 0, _ => []
  | fuel + 1, i =>
    if i < text.length then
      jsTrim (subChars text i (chunkEnd text n i)) ::
        createChunksAux text n fuel (chunkEnd text n i)
    else []

/-- `createChunks(text, chunkSize)` (`indexer.ts:117-152`). -/
def createChunks (text : List Char) (n : Nat) : List (List Char) :=
  createChunksAux text n (text.length + 1) 0

/-- A small text exercising a sentence break. -/
def c7Text : List Char := "ab. cd! ef gh".toList

/-- A text whose only chunk is non-empty after trimming. -/
def c8Text : List Char := "ab ".toList

/-! ### Model of `lib/progress-tracker.ts` (`ProgressTracker`)

Keys: `progress:<jobId>` holds a `ProgressUpdate`,
`progress:<jobId>:batch:<batchId>` holds a `BatchProgress`; both stores
use `SET` with an expiry (the expiry is not modelled).  Numeric progress
`Math.floor((processedChunks / totalChunks) * 100)` is the exact rational
floor `processedChunks * 100 / totalChunks` (Nat division). -/

structure BatchProgress where
  batchId : String
  jobId : String
  startIndex : Nat
  endIndex : Nat
  totalChunks : Nat
  completed : Bool
  error : Option String
  startTime : Nat
  endTime : Option Nat
deriving DecidableEq, Repr

structure ProgressUpdate where
  jobId : String
  docId : String
  progress : Nat
  totalChunks : Option Nat
  processedChunks : Option Nat
  estimatedTimeRemaining : Option Int
  currentBatch : Option Nat
  totalBatches : Option Nat
  startTime : Option Nat
  status : String
  error : Option String
  workerId : Option String
  timestamp : Nat
deriving DecidableEq, Repr

structure ProgressState where
  progresses : List (String × ProgressUpdate)
  batches : List (String × BatchProgress)
deriving DecidableEq, Repr

def getProgressKey (jobId : String) : String := "progress:" ++ jobId

def getBatchKey (jobId batchId : String) : String :=
  "progress:" ++ jobId ++ ":batch:" ++ batchId

/-- `updateProgress(jobId, progress, details)`
(`progress-tracker.ts:810-844`): re-reads the progress record (no-op when
absent), recomputes `estimatedTimeRemaining` when `startTime` is truthy
and `progress > 0` (`Math.floor((elapsed / progress) * (100 - progress))`
is the rational floor `(elapsed * (100 - progress)).fdiv progress`, on
`Int` since `100 - progress` may be negative), and merges
`{...current, ...details, progress, estimatedTimeRemaining, timestamp}`.
On the verified call path `details` is `{ processedChunks }`, modelled by
the optional override. -/
def updateProgress (st : ProgressState) (jobId : String) (progress : Nat)
    (detailsProcessedChunks : Option Nat) (now : Nat) : ProgressState :=
  match lookupKV st.progresses (getProgressKey jobId) with
  | none => st
  | some current =>
    let etr : Option Int :=
      match current.startTime with
      | some t0 =>
        if t0 ≠ 0 ∧ 0 < progress then
          some (Int.fdiv (((now : Int) - (t0 : Int)) * (100 - (progress : Int)))
            (progress : Int))
        else none
      | none => none
    let upd : ProgressUpdate :=
      { current with
        processedChunks :=
          match detailsProcessedChunks with
          | some pc => some pc
          | none => current.processedChunks,
        progress := progress,
        estimatedTimeRemaining := etr,
        timestamp := now }
    { st with progresses := setKV st.progresses (getProgressKey jobId) upd }

/-- `incrementProcessedChunks(jobId, count)`
(`progress-tracker.ts:908-924`): no-op when the progress record is
absent; otherwise `processedChunks := (current.processedChunks || 0) +
count` and `progress := current.totalChunks ?
Math.floor((processedChunks / totalChunks) * 100) : 0` (a missing or
zero — falsy — `totalChunks` gives 0). -/
def incrementProcessedChunks (st : ProgressState) (jobId : String)
    (count : Nat) (now : Nat) : ProgressState :=
  match lookupKV st.progresses (getProgressKey jobId) with
  | none => st
  | some current =>
    let processedChunks := current.processedChunks.getD 0 + count
    let progress :=
      match current.totalChunks with
      | some t => if t ≠ 0 then processedChunks * 100 / t else 0
      | none => 0
    updateProgress st jobId progress (some processedChunks) now

/-- `completeBatch(jobId, batchId, error?)`
(`progress-tracker.ts:876-903`): no-op when the batch record is absent;
otherwise marks the batch `{completed: true, endTime, error}` and
increments the job's processed chunks by `endIndex - startIndex + 1` —
regardless of whether `error` is present. -/
def completeBatch (st : ProgressState) (jobId batchId : String)
    (error : Option String) (now : Nat) : ProgressState :=
  match lookupKV st.batches (getBatchKey jobId batchId) with
  | none => st
  | some batch =>
    let completed : BatchProgress :=
      { batch with completed := true, endTime := some now, error := error }
    let st1 :=
      { st with batches := setKV st.batches (getBatchKey jobId batchId) completed }
    let processed := completed.endIndex - completed.startIndex + 1
    incrementProcessedChunks st1 jobId processed now

/-- A concrete batch record over chunks 0-9 of 20. -/
def wBatch : BatchProgress :=
  { batchId := "b0", jobId := "j0", startIndex := 0, endIndex := 9,
    totalChunks := 20, completed := false, error := none, startTime := 100,
    endTime := none }

def wProgress : ProgressUpdate :=
  { jobId := "j0", docId := "d0", progress := 0, totalChunks := some 20,
    processedChunks := some 0, estimatedTimeRemaining := none,
    currentBatch := none, totalBatches := none, startTime := some 100,
    status := "processing", error := none, workerId := none,
    timestamp := 100 }

def wPState : ProgressState :=
  { progresses := [(getProgressKey "j0", wProgress)],
    batches := [(getBatchKey "j0" "b0", wBatch)] }

end VidyaVaani

namespace VidyaVaani

/-! ## Theorems -/

/-! ### Association-list lemmas -/

theorem lookupKV_setKV_self {α : Type} (l : List (String × α)) (k : String) (v : α) :
    lookupKV (setKV l k v) k = some v := by
  simp [setKV, lookupKV]

theorem lookupKV_filter_ne {α : Type} (l : List (String × α)) (k k' : String)
    (h : k' ≠ k) :
    lookupKV (l.filter (fun p => !(p.1 = k : Bool))) k' = lookupKV l k' := by
  induction l with
  | nil => rfl
  | cons p rest ih =>
    by_cases hp : p.1 = k
    · have : (!(p.1 = k : Bool)) = false := by simp [hp]
      rw [List.filter_cons, this]
      simp only [ite_false, Bool.false_eq_true, if_false]
      rw [ih, lookupKV]
      have : ¬ p.1 = k' := by rw [hp]; exact fun hh => h hh.symm
      simp [this]
    · have : (!(p.1 = k : Bool)) = true := by simp [hp]
      rw [List.filter_cons, this]
      simp only [if_true]
      rw [lookupKV, lookupKV]
      by_cases hk : p.1 = k'
      · simp [hk]
      · simp [hk, ih]

theorem lookupKV_setKV_ne {α : Type} (l : List (String × α)) (k k' : String) (v : α)
    (h : k' ≠ k) :
    lookupKV (setKV l k v) k' = lookupKV l k' := by
  rw [setKV, lookupKV]
  have : ¬ ((k, v).1 = k') := fun hh => h hh.symm
  simp only [this, if_false]
  exact lookupKV_filter_ne l k k' h

theorem lookupKV_eq_some_mem {α : Type} {l : List (String × α)} {k : String} {v : α}
    (h : lookupKV l k = some v) : (k, v) ∈ l := by
  induction l with
  | nil => simp [lookupKV] at h
  | cons p rest ih =>
    rw [lookupKV] at h
    by_cases hp : p.1 = k
    · simp only [hp, if_true, Option.some.injEq] at h
      have hpv : p = (k, v) := by cases p; simp_all
      rw [← hpv]
      exact List.mem_cons_self _ _
    · simp only [hp, if_false] at h
      exact List.mem_cons_of_mem _ (ih h)

theorem lookupKV_eq_none_forall {α : Type} {l : List (String × α)} {k : String}
    (h : lookupKV l k = none) : ∀ p ∈ l, p.1 ≠ k := by
  induction l with
  | nil => intro p hp; simp at hp
  | cons q rest ih =>
    rw [lookupKV] at h
    by_cases hq : q.1 = k
    · simp [hq] at h
    · simp only [hq, if_false] at h
      intro p hp
      rcases List.mem_cons.mp hp with rfl | hmem
      · exact hq
      · exact ih h p hmem

theorem mem_setKV {α : Type} {l : List (String × α)} {k : String} {v : α} {p : String × α}
    (h : p ∈ setKV l k v) : p = (k, v) ∨ (p ∈ l ∧ p.1 ≠ k) := by
  rw [setKV] at h
  rcases List.mem_cons.mp h with rfl | hmem
  · exact Or.inl rfl
  · right
    have := List.mem_filter.mp hmem
    refine ⟨this.1, ?_⟩
    have hb := this.2
    simpa using hb

/-! ### Location / invariant bridges -/

theorem inv_empty : Inv emptyState := by
  refine ⟨?_, ?_, ?_, ?_⟩ <;> simp [emptyState, liveIds]

theorem inPendingB_mem_live {s : QueueState} {id : String}
    (h : inPendingB s id = true) : id ∈ liveIds s := by
  rw [inPendingB, List.any_eq_true] at h
  obtain ⟨j, hj, he⟩ := h
  have : j.jobId = id := by simpa using he
  rw [liveIds, List.map_append]
  exact List.mem_append_left _ (this ▸ List.mem_map_of_mem Job.jobId hj)

theorem inProcessingB_mem_live {s : QueueState} {id : String}
    (h : inProcessingB s id = true) : id ∈ liveIds s := by
  rw [inProcessingB, List.any_eq_true] at h
  obtain ⟨j, hj, he⟩ := h
  have : j.jobId = id := by simpa using he
  rw [liveIds, List.map_append]
  exact List.mem_append_right _ (this ▸ List.mem_map_of_mem Job.jobId hj)

theorem inv_exclusive {s : QueueState} (h : Inv s) (id : String) :
    exclusive s id := by
  obtain ⟨hnd, hres, hfail, hcf⟩ := h
  have hlive_comp : id ∈ liveIds s → inCompletedResultB s id = false := by
    intro hl
    rw [inCompletedResultB, hres id hl]
  have hlive_fail : id ∈ liveIds s → inFailedB s id = false := by
    intro hl
    exact hfail id hl
  have hcomp_fail : inCompletedResultB s id = true → inFailedB s id = false := by
    intro hc
    rw [inCompletedResultB] at hc
    cases hr : lookupKV s.results id with
    | none => rw [hr] at hc; simp at hc
    | some r =>
      rw [hr] at hc
      have hst : r.status = "completed" := by simpa using hc
      exact hcf (id, r) (lookupKV_eq_some_mem hr) hst
  have hpp : inPendingB s id = true → inProcessingB s id = true → False := by
    intro hp hq
    rw [inPendingB, List.any_eq_true] at hp
    rw [inProcessingB, List.any_eq_true] at hq
    obtain ⟨j, hj, hje⟩ := hp
    obtain ⟨j', hj', hje'⟩ := hq
    rw [liveIds, List.map_append] at hnd
    have hdisj := List.disjoint_of_nodup_append hnd
    exact hdisj ((by simpa using hje : j.jobId = id) ▸ List.mem_map_of_mem Job.jobId hj)
      ((by simpa using hje' : j'.jobId = id) ▸ List.mem_map_of_mem Job.jobId hj')
  have hPC : inPendingB s id = true → inCompletedResultB s id = false :=
    fun a => hlive_comp (inPendingB_mem_live a)
  have hQC : inProcessingB s id = true → inCompletedResultB s id = false :=
    fun a => hlive_comp (inProcessingB_mem_live a)
  have hPF : inPendingB s id = true → inFailedB s id = false :=
    fun a => hlive_fail (inPendingB_mem_live a)
  have hQF : inProcessingB s id = true → inFailedB s id = false :=
    fun a => hlive_fail (inProcessingB_mem_live a)
  rw [exclusive]
  cases hA : inPendingB s id <;> cases hB : inProcessingB s id <;>
    cases hC : inCompletedResultB s id <;> cases hD : inFailedB s id <;>
    simp_all [boolCount]

/-! ### Lemmas about `findJob` and `removeFirstById` -/

theorem findJob_jobId {l : List Job} {id : String} {j : Job}
    (h : findJob l id = some j) : j.jobId = id := by
  have := List.find?_some h
  simpa using this

theorem findJob_mem {l : List Job} {id : String} {j : Job}
    (h : findJob l id = some j) : j ∈ l :=
  List.mem_of_find?_eq_some h

theorem removeFirstById_sublist (l : List Job) (id : String) :
    (removeFirstById l id).Sublist l := by
  induction l with
  | nil => simp [removeFirstById]
  | cons j rest ih =>
    rw [removeFirstById]
    by_cases h : j.jobId = id
    · simp only [h, if_true]
      exact List.sublist_cons_self j rest
    · simp only [h, if_false]
      exact ih.cons₂ j

theorem removeFirstById_perm {l : List Job} {id : String} {j : Job}
    (h : findJob l id = some j) : l.Perm (j :: removeFirstById l id) := by
  induction l with
  | nil => simp [findJob] at h
  | cons j0 rest ih =>
    rw [findJob, List.find?] at h
    by_cases h0 : j0.jobId = id
    · have : j0 = j := by
        have : decide (j0.jobId = id) = true := by simp [h0]
        rw [this] at h
        simpa using h
      subst this
      rw [removeFirstById]
      simp [h0]
    · have hd : decide (j0.jobId = id) = false := by simp [h0]
      rw [hd] at h
      rw [removeFirstById]
      simp only [h0, if_false]
      exact (List.Perm.cons j0 (ih h)).trans (List.Perm.swap j j0 _)

theorem not_mem_map_removeFirstById {l : List Job} {id : String}
    (hnd : (l.map Job.jobId).Nodup) : id ∉ (removeFirstById l id).map Job.jobId := by
  induction l with
  | nil => simp [removeFirstById]
  | cons j rest ih =>
    rw [removeFirstById]
    by_cases h : j.jobId = id
    · simp only [h, if_true]
      rw [List.map_cons, List.nodup_cons] at hnd
      rw [← h]
      exact hnd.1
    · simp only [h, if_false, List.map_cons]
      rw [List.map_cons, List.nodup_cons] at hnd
      intro hmem
      rcases List.mem_cons.mp hmem with heq | hmem'
      · exact h heq.symm
      · exact ih hnd.2 hmem'

/-! ### Invariant preservation -/

theorem inv_enqueue {s : QueueState} (h : Inv s) {id : String}
    (hf : freshId s id) (inp : JobInput) (now : Nat) :
    Inv (enqueue s inp id now) := by
  obtain ⟨hnd, hres, hfail, hcf⟩ := h
  obtain ⟨hfp, hfq, hfr, hff⟩ := hf
  have hidnot : id ∉ liveIds s := by
    intro hmem
    rw [liveIds, List.map_append] at hmem
    rcases List.mem_append.mp hmem with hp | hq
    · obtain ⟨j, hj, hje⟩ := List.mem_map.mp hp
      have : inPendingB s id = true := by
        rw [inPendingB, List.any_eq_true]
        exact ⟨j, hj, by simp [hje]⟩
      rw [hfp] at this; exact absurd this (by simp)
    · obtain ⟨j, hj, hje⟩ := List.mem_map.mp hq
      have : inProcessingB s id = true := by
        rw [inProcessingB, List.any_eq_true]
        exact ⟨j, hj, by simp [hje]⟩
      rw [hfq] at this; exact absurd this (by simp)
  have hlive : liveIds (enqueue s inp id now) = id :: liveIds s := by
    simp [enqueue, liveIds]
  have hresnone : lookupKV s.results id = none := by
    rw [inResultsB] at hfr
    cases hl : lookupKV s.results id with
    | none => rfl
    | some r => rw [hl] at hfr; simp at hfr
  refine ⟨?_, ?_, ?_, ?_⟩
  · rw [hlive]
    exact List.nodup_cons.mpr ⟨hidnot, hnd⟩
  · intro id' hid'
    rw [hlive, List.mem_cons] at hid'
    show lookupKV s.results id' = none
    rcases hid' with rfl | hmem
    · exact hresnone
    · exact hres id' hmem
  · intro id' hid'
    rw [hlive, List.mem_cons] at hid'
    show (s.failed.any fun f => f.job.jobId = id') = false
    rcases hid' with rfl | hmem
    · exact hff
    · exact hfail id' hmem
  · intro p hp hst
    exact hcf p hp hst

theorem dequeueStep_frames {s s' : QueueState} {w : String} {now : Nat} {j' : Job}
    (h : dequeueStep s w now = some (s', j')) :
    liveIds s' = liveIds s ∧ s'.results = s.results ∧ s'.failed = s.failed ∧
    s'.docs = s.docs ∧ s'.workerStatus = s.workerStatus := by
  rw [dequeueStep] at h
  cases hl : s.pending.getLast? with
  | none => rw [hl] at h; simp at h
  | some j =>
    rw [hl] at h
    simp only [Option.some.injEq, Prod.mk.injEq] at h
    obtain ⟨hs, hj⟩ := h
    have hne : s.pending ≠ [] := by
      intro hnil; rw [hnil] at hl; simp at hl
    have hdecomp : s.pending.dropLast ++ [j] = s.pending := by
      have := List.dropLast_append_getLast hne
      have hj' : s.pending.getLast hne = j := by
        rw [List.getLast?_eq_getLast s.pending hne] at hl
        simpa using hl
      rw [hj'] at this
      exact this
    subst hs
    refine ⟨?_, rfl, rfl, rfl, rfl⟩
    rw [liveIds, liveIds]
    simp only []
    conv_rhs => rw [← hdecomp]
    simp [modifyJob]

theorem dequeueLoop_frames (w : String) (now : Nat) :
    ∀ (n : Nat) (s : QueueState),
    liveIds (dequeueLoop w now n s).1 = liveIds s ∧
    (dequeueLoop w now n s).1.results = s.results ∧
    (dequeueLoop w now n s).1.failed = s.failed := by
  intro n
  induction n with
  | zero => intro s; exact ⟨rfl, rfl, rfl⟩
  | succ n ih =>
    intro s
    rw [dequeueLoop]
    cases hstep : dequeueStep s w now with
    | none => exact ⟨rfl, rfl, rfl⟩
    | some r =>
      obtain ⟨s', j'⟩ := r
      obtain ⟨h1, h2, h3, _, _⟩ := dequeueStep_frames hstep
      obtain ⟨g1, g2, g3⟩ := ih s'
      simp only []
      exact ⟨g1.trans h1, g2.trans h2, g3.trans h3⟩

theorem inv_dequeue {s : QueueState} (h : Inv s) (w : String) (now : Nat) :
    Inv (dequeue s w now).1 := by
  obtain ⟨h1, h2, h3⟩ := dequeueLoop_frames w now MAX_JOBS_PER_WORKER s
  rw [dequeue]
  by_cases hc : 0 < (dequeueLoop w now MAX_JOBS_PER_WORKER s).2.length
  · simp only [hc, if_true]
    rw [Inv, liveIds] at h ⊢
    simp only []
    rw [liveIds] at h1
    rw [h1, h2, h3]
    exact h
  · simp only [hc, if_false]
    rw [Inv] at h ⊢
    rw [h1, h2, h3]
    exact h

theorem findJob_id_mem_live {s : QueueState} {id : String} {j : Job}
    (hf : findJob s.processing id = some j) : id ∈ liveIds s := by
  rw [liveIds, List.map_append]
  exact List.mem_append_right _
    ((findJob_jobId hf) ▸ List.mem_map_of_mem Job.jobId (findJob_mem hf))

theorem findJob_id_not_pending {s : QueueState} {id : String} {j : Job}
    (hnd : (liveIds s).Nodup) (hf : findJob s.processing id = some j) :
    id ∉ s.pending.map Job.jobId := by
  rw [liveIds, List.map_append] at hnd
  have hdisj := List.disjoint_of_nodup_append hnd
  intro hmem
  exact hdisj hmem
    ((findJob_jobId hf) ▸ List.mem_map_of_mem Job.jobId (findJob_mem hf))

theorem findJob_id_not_removed {s : QueueState} {id : String} {j : Job}
    (hnd : (liveIds s).Nodup) (_ : findJob s.processing id = some j) :
    id ∉ (removeFirstById s.processing id).map Job.jobId := by
  rw [liveIds, List.map_append, List.nodup_append] at hnd
  exact not_mem_map_removeFirstById hnd.2.1

theorem inv_complete {s : QueueState} (h : Inv s) (id : String) (payload : String)
    (now : Nat) : Inv (complete s id payload now).1 := by
  rw [complete]
  cases hf : findJob s.processing id with
  | none => exact h
  | some j =>
    obtain ⟨hnd, hres, hfail, hcf⟩ := h
    have hsub : ((s.pending ++ removeFirstById s.processing id).map Job.jobId).Sublist
        (liveIds s) := by
      rw [liveIds]
      exact ((removeFirstById_sublist s.processing id).append_left s.pending).map _
    have hidnot : id ∉ (s.pending ++ removeFirstById s.processing id).map Job.jobId := by
      rw [List.map_append]
      intro hmem
      rcases List.mem_append.mp hmem with hp | hq
      · exact findJob_id_not_pending hnd hf hp
      · exact findJob_id_not_removed hnd hf hq
    refine ⟨?_, ?_, ?_, ?_⟩
    · exact hnd.sublist hsub
    · intro id' hid'
      have hid'ne : id' ≠ id := fun heq => hidnot (heq ▸ hid')
      show lookupKV (setKV s.results id _) id' = none
      rw [lookupKV_setKV_ne _ _ _ _ hid'ne]
      exact hres id' (hsub.subset hid')
    · intro id' hid'
      exact hfail id' (hsub.subset hid')
    · intro p hp hst
      rcases mem_setKV hp with rfl | ⟨hmem, hne⟩
      · exact hfail id (findJob_id_mem_live hf)
      · exact hcf p hmem hst

theorem inv_fail {s : QueueState} (h : Inv s) (id : String) (err : String)
    (retry : Bool) (now : Nat) : Inv (failJob s id err retry now).1 := by
  rw [failJob]
  cases hf : findJob s.processing id with
  | none => exact h
  | some j =>
    obtain ⟨hnd, hres, hfail, hcf⟩ := h
    dsimp only
    by_cases hretry : (retry && decide (j.attempts < 3)) = true
    · rw [if_pos hretry]
      have hperm : (liveIds s).Perm
          ((s.pending ++ [j]).map Job.jobId ++
            (removeFirstById s.processing id).map Job.jobId) := by
        rw [liveIds, List.map_append, List.map_append]
        have hp : (s.processing.map Job.jobId).Perm
            (j.jobId :: (removeFirstById s.processing id).map Job.jobId) := by
          have := (removeFirstById_perm hf).map Job.jobId
          simpa using this
        have := hp.append_left (s.pending.map Job.jobId)
        simpa using this
      refine ⟨?_, ?_, ?_, ?_⟩
      · rw [liveIds, List.map_append]
        exact (hperm.nodup_iff).mp hnd
      · intro id' hid'
        rw [liveIds, List.map_append] at hid'
        exact hres id' ((hperm.mem_iff).mpr hid')
      · intro id' hid'
        rw [liveIds, List.map_append] at hid'
        exact hfail id' ((hperm.mem_iff).mpr hid')
      · intro p hp hst
        exact hcf p hp hst
    · rw [if_neg hretry]
      have hsub : ((s.pending ++ removeFirstById s.processing id).map Job.jobId).Sublist
          (liveIds s) := by
        rw [liveIds]
        exact ((removeFirstById_sublist s.processing id).append_left s.pending).map _
      have hidnot : id ∉ (s.pending ++ removeFirstById s.processing id).map Job.jobId := by
        rw [List.map_append]
        intro hmem
        rcases List.mem_append.mp hmem with hp | hq
        · exact findJob_id_not_pending hnd hf hp
        · exact findJob_id_not_removed hnd hf hq
      have hresid : lookupKV s.results id = none := hres id (findJob_id_mem_live hf)
      refine ⟨?_, ?_, ?_, ?_⟩
      · exact hnd.sublist hsub
      · intro id' hid'
        have hid'ne : id' ≠ id := fun heq => hidnot (heq ▸ hid')
        show lookupKV (setKV s.results id _) id' = none
        rw [lookupKV_setKV_ne _ _ _ _ hid'ne]
        exact hres id' (hsub.subset hid')
      · intro id' hid'
        have hid'ne : id' ≠ id := fun heq => hidnot (heq ▸ hid')
        show (List.any ({ job := j, error := err, failedAt := now } :: s.failed)
          fun f => f.job.jobId = id') = false
        rw [List.any_cons]
        have h1 : (decide (j.jobId = id')) = false := by
          rw [findJob_jobId hf]
          simp only [decide_eq_false_iff_not]
          exact fun heq => hid'ne heq.symm
        simp only [h1, Bool.false_or]
        exact hfail id' (hsub.subset hid')
      · intro p hp hst
        rcases mem_setKV hp with rfl | ⟨hmem, hne⟩
        · simp at hst
        · have hpne : p.1 ≠ id := lookupKV_eq_none_forall hresid p hmem
          show (List.any ({ job := j, error := err, failedAt := now } :: s.failed)
            fun f => f.job.jobId = p.1) = false
          rw [List.any_cons]
          have h1 : (decide (j.jobId = p.1)) = false := by
            rw [findJob_jobId hf]
            simp only [decide_eq_false_iff_not]
            exact fun heq => hpne heq.symm
          simp only [h1, Bool.false_or]
          exact hcf p hmem hst

/-- Every reachable state satisfies the inductive invariant. -/
theorem reachable_inv {s : QueueState} (h : Reachable s) : Inv s := by
  induction h with
  | init => exact inv_empty
  | enq inp id now _ hf ih => exact inv_enqueue ih hf inp now
  | deq w now _ ih => exact inv_dequeue ih w now
  | comp id payload now _ ih => exact inv_complete ih id payload now
  | flr id err retry now _ ih => exact inv_fail ih id err retry now

/-! ### Claim C1 -/

/-- C1 (counterexample to the claim as stated): after enqueue, dequeue and
a terminal `fail`, the job id `"j1"` occupies two of the four listed
locations at once — the terminal-result store (`indexing_result:j1`,
status `"failed"`) and the failed list — in a state reachable by a
sequence of the four queue operations. -/
theorem strict_exclusivity_counterexample :
    Reachable c1State ∧ ¬ strictExclusive c1State "j1" := by
  constructor
  · exact Reachable.flr "j1" "boom" false 2
      (Reachable.deq "w1" 1
        (Reachable.enq exInput "j1" 0 Reachable.init ⟨rfl, rfl, rfl, rfl⟩))
  · unfold strictExclusive
    decide

/-- C1 (amended): in every reachable queue state, every job id appears in
at most one of the pending list, the processing list, the
completed-status result store, and the failed list.  (A terminally failed
job occupies both the failed list and a failed-status result record, so
the result-store location must be read as completed-status records.) -/
theorem queue_job_location_exclusivity {s : QueueState} (h : Reachable s)
    (id : String) : exclusive s id :=
  inv_exclusive (reachable_inv h) id

/-- Witness for C1 at a concrete reachable state. -/
theorem queue_job_location_exclusivity_witness : exclusive emptyState "j1" :=
  queue_job_location_exclusivity Reachable.init "j1"

/-! ### Claim C2 -/

/-- C2: for a job found in the processing list and any `retry` flag,
`fail(jobId, err, retry)` re-appends the job to the pending list with
its attempts count preserved exactly when `retry` is set and
`attempts < 3`; otherwise (`attempts ≥ 3` — in particular the
`attempts = 3` boundary — or `retry = false`) nothing is re-enqueued and
a terminal `"failed"` result record, a failed-list entry and a failed
document status (with the error attached) are written. -/
theorem fail_retry_boundary (s : QueueState) (id err : String) (retry : Bool)
    (now : Nat) (j : Job) (hf : findJob s.processing id = some j) :
    failOutcomeSpec s id err retry now j := by
  rw [failOutcomeSpec]
  by_cases hc : retry = true ∧ j.attempts < 3
  · rw [if_pos hc]
    have he : failJob s id err retry now =
        ({ s with processing := removeFirstById s.processing id,
                  pending := s.pending ++ [j] }, true) := by
      rw [failJob, hf]
      dsimp only
      rw [if_pos (by simp [hc.1, hc.2])]
    rw [he]
    exact ⟨rfl, rfl, rfl, rfl, rfl, rfl⟩
  · rw [if_neg hc]
    have hguard : (retry && decide (j.attempts < 3)) = false := by
      cases retry with
      | false => rfl
      | true =>
        have : ¬ j.attempts < 3 := fun hlt => hc ⟨rfl, hlt⟩
        simp [this]
    have he : failJob s id err retry now =
        ({ s with processing := removeFirstById s.processing id,
                  failed := { job := j, error := err, failedAt := now } :: s.failed,
                  results := setKV s.results id
                    { payload := none, error := some err, docId := j.docId,
                      time := now, status := "failed" },
                  docs := setKV s.docs j.docId
                    { (lookupKV s.docs j.docId).getD emptyDoc with
                      status := "failed", error := some err,
                      failedAt := some now } }, true) := by
      rw [failJob, hf]
      dsimp only
      rw [if_neg (by rw [hguard]; simp)]
    rw [he]
    exact ⟨rfl, rfl, rfl, lookupKV_setKV_self _ _ _, rfl,
      lookupKV_setKV_self _ _ _⟩

/-- Witness for C2 at the emphasised boundary input: `retry = true` with
`attempts = 3` takes the terminal branch. -/
theorem fail_retry_boundary_witness :
    failOutcomeSpec wState3 "jw" "boom" true 9 wJob3 :=
  fail_retry_boundary wState3 "jw" "boom" true 9 wJob3 rfl

/-! ### Claim C9 -/

/-- C9: when the job id does not occur in the processing list, both
`complete` and `fail` return `false` and leave the entire queue state —
pending, processing, results, failed list, documents, worker status —
unchanged. -/
theorem unknown_job_noop (s : QueueState) (id payload err : String)
    (retry : Bool) (now : Nat) (h : findJob s.processing id = none) :
    complete s id payload now = (s, false) ∧
    failJob s id err retry now = (s, false) := by
  constructor
  · rw [complete, h]
  · rw [failJob, h]

/-- Witness for C9 on a concrete state with an unknown job id. -/
theorem unknown_job_noop_witness :
    complete emptyState "zz" "r" 0 = (emptyState, false) ∧
    failJob emptyState "zz" "e" true 0 = (emptyState, false) :=
  unknown_job_noop emptyState "zz" "r" "e" true 0 rfl

/-! ### Characterisation of the dequeue loop -/

theorem dequeueLoop_spec (w : String) (now : Nat) :
    ∀ (n : Nat) (s : QueueState),
    (dequeueLoop w now n s).2 = (s.pending.reverse.take n).map (modifyJob w now) ∧
    (dequeueLoop w now n s).1.pending =
      s.pending.take (s.pending.length - min n s.pending.length) ∧
    (dequeueLoop w now n s).1.processing =
      ((s.pending.reverse.take n).map (modifyJob w now)).reverse ++ s.processing ∧
    (dequeueLoop w now n s).1.results = s.results ∧
    (dequeueLoop w now n s).1.failed = s.failed ∧
    (dequeueLoop w now n s).1.docs = s.docs ∧
    (dequeueLoop w now n s).1.workerStatus = s.workerStatus := by
  intro n
  induction n with
  | zero =>
    intro s
    refine ⟨?_, ?_, ?_, ?_, ?_, ?_, ?_⟩ <;> simp [dequeueLoop]
  | succ n ih =>
    intro s
    cases hr : s.pending.reverse with
    | nil =>
      have hp : s.pending = [] := by
        have := congrArg List.reverse hr
        simpa using this
      have hstep : dequeueStep s w now = none := by
        rw [dequeueStep, hp]
        rfl
      refine ⟨?_, ?_, ?_, ?_, ?_, ?_, ?_⟩ <;>
        rw [dequeueLoop, hstep] <;> simp [hp]
    | cons x tR =>
      have hpend : s.pending = tR.reverse ++ [x] := by
        rw [← List.reverse_reverse s.pending, hr]
        simp
      have hgl : s.pending.getLast? = some x := by rw [hpend]; simp
      have hdl : s.pending.dropLast = tR.reverse := by rw [hpend]; simp
      have hstep : dequeueStep s w now =
          some ({ s with pending := tR.reverse,
                         processing := modifyJob w now x :: s.processing },
                modifyJob w now x) := by
        rw [dequeueStep, hgl]
        dsimp only
        rw [hdl]
      have ihc := ih { s with pending := tR.reverse,
                              processing := modifyJob w now x :: s.processing }
      simp only [List.reverse_reverse] at ihc
      obtain ⟨ih1, ih2, ih3, ih4, ih5, ih6, ih7⟩ := ihc
      have hlen : s.pending.length = tR.length + 1 := by rw [hpend]; simp
      have htake : ∀ m : Nat, m ≤ tR.length →
          s.pending.take m = tR.reverse.take m := by
        intro m hm
        rw [hpend]
        exact List.take_append_of_le_length (by simpa using hm)
      refine ⟨?_, ?_, ?_, ?_, ?_, ?_, ?_⟩
      · simp only [dequeueLoop, hstep]
        rw [ih1]
        simp
      · simp only [dequeueLoop, hstep]
        rw [ih2, hlen, List.length_reverse]
        have harith : tR.length + 1 - min (n + 1) (tR.length + 1) =
            tR.length - min n tR.length := by omega
        rw [harith, htake _ (Nat.sub_le _ _)]
      · simp only [dequeueLoop, hstep]
        rw [ih3]
        simp [List.append_assoc]
      · simp only [dequeueLoop, hstep]
        exact ih4
      · simp only [dequeueLoop, hstep]
        exact ih5
      · simp only [dequeueLoop, hstep]
        exact ih6
      · simp only [dequeueLoop, hstep]
        exact ih7

/-- The batch returned by `dequeue`, independent of the worker-status
update branch. -/
theorem dequeue_batch (s : QueueState) (w : String) (now : Nat) :
    (dequeue s w now).2 =
      (s.pending.reverse.take MAX_JOBS_PER_WORKER).map (modifyJob w now) := by
  obtain ⟨h1, _⟩ := dequeueLoop_spec w now MAX_JOBS_PER_WORKER s
  rw [dequeue]
  by_cases hc : 0 < (dequeueLoop w now MAX_JOBS_PER_WORKER s).2.length
  · simp only [hc, if_true]
    exact h1
  · simp only [hc, if_false]
    exact h1

theorem dequeue_state (s : QueueState) (w : String) (now : Nat) :
    (dequeue s w now).1.pending =
      s.pending.take (s.pending.length - min MAX_JOBS_PER_WORKER s.pending.length) ∧
    (dequeue s w now).1.processing =
      ((s.pending.reverse.take MAX_JOBS_PER_WORKER).map (modifyJob w now)).reverse
        ++ s.processing ∧
    (dequeue s w now).1.results = s.results ∧
    (dequeue s w now).1.failed = s.failed ∧
    (dequeue s w now).1.docs = s.docs := by
  obtain ⟨_, h2, h3, h4, h5, h6, _⟩ := dequeueLoop_spec w now MAX_JOBS_PER_WORKER s
  rw [dequeue]
  by_cases hc : 0 < (dequeueLoop w now MAX_JOBS_PER_WORKER s).2.length
  · simp only [hc, if_true]
    exact ⟨h2, h3, h4, h5, h6⟩
  · simp only [hc, if_false]
    exact ⟨h2, h3, h4, h5, h6⟩

/-! ### Claim C3 -/

/-- C3 (counterexample to the claim as stated): `dequeue` does not keep
the `timestamp` field of a moved job identical to its pending copy — the
single pending job of `sC3` has `timestamp = 5`, and the job returned by
`dequeue(. , "w1", now := 100)` carries `timestamp = 100`
(`queue.ts:137` assigns `job.timestamp = Date.now()`). -/
theorem dequeue_timestamp_counterexample :
    ¬ (∀ jb ∈ (dequeue sC3 "w1" 100).2, ∃ j0 ∈ sC3.pending,
        j0.jobId = jb.jobId ∧ jb.timestamp = j0.timestamp) := by
  decide

/-- C3 (amended): `dequeue(workerId)` pops `min 5 |pending|` jobs from
the `RPOP` end of the pending list (an empty pending list yields an empty
batch); every moved job is exactly `modifyJob` of its pending copy —
`attempts` incremented by one, `workerId` set to the caller, `timestamp`
set to the dequeue time, and the remaining fields `jobId`, `docId`,
`storagePath`, `metadata`, `priority` untouched — and the result, failed
and document stores are unchanged. -/
theorem dequeue_spec (s : QueueState) (w : String) (now : Nat) :
    (dequeue s w now).2 =
      (s.pending.reverse.take MAX_JOBS_PER_WORKER).map (modifyJob w now) ∧
    (dequeue s w now).2.length = min MAX_JOBS_PER_WORKER s.pending.length ∧
    (∀ jb ∈ (dequeue s w now).2, ∃ j0 ∈ s.pending, jb = modifyJob w now j0) ∧
    (dequeue s w now).1.pending =
      s.pending.take (s.pending.length - (dequeue s w now).2.length) ∧
    (dequeue s w now).1.processing = (dequeue s w now).2.reverse ++ s.processing ∧
    (dequeue s w now).1.results = s.results ∧
    (dequeue s w now).1.failed = s.failed ∧
    (dequeue s w now).1.docs = s.docs ∧
    (s.pending = [] → (dequeue s w now).2 = []) := by
  have hb := dequeue_batch s w now
  obtain ⟨h2, h3, h4, h5, h6⟩ := dequeue_state s w now
  have hlenb : (dequeue s w now).2.length = min MAX_JOBS_PER_WORKER s.pending.length := by
    rw [hb]
    simp [Nat.min_comm]
  refine ⟨hb, hlenb, ?_, ?_, ?_, h4, h5, h6, ?_⟩
  · intro jb hjb
    rw [hb] at hjb
    obtain ⟨j0, hj0, hje⟩ := List.mem_map.mp hjb
    exact ⟨j0, List.mem_reverse.mp (List.mem_of_mem_take hj0), hje.symm⟩
  · rw [hlenb]
    exact h2
  · rw [h3, hb]
  · intro hp
    rw [hb, hp]
    rfl

/-! ### Claim C4 -/

/-- C4 (counterexample to the claim as stated): with job `a` pending and
job `b` being retried by `fail("b", e, retry := true)`, the next dequeue
returns `b` first and `a` second — the job already pending is NOT
dequeued before the retried job. -/
theorem retry_order_counterexample :
    ((dequeue sC4retried "w1" 11).2.map Job.jobId = ["b", "a"]) ∧
    ¬ (((dequeue sC4retried "w1" 11).2.map Job.jobId).indexOf "a" <
       ((dequeue sC4retried "w1" 11).2.map Job.jobId).indexOf "b") := by
  constructor
  · decide
  · decide

/-- C4 (amended): a job re-enqueued by `fail(jobId, err, retry := true)`
with `attempts < 3` is `RPUSH`ed at the dequeue (`RPOP`) end of the
pending list, so the very next `dequeue` returns it as the first job of
its batch, ahead of every job that was already pending. -/
theorem retry_requeue_front (s : QueueState) (id err : String) (now : Nat)
    (j : Job) (w : String) (now2 : Nat)
    (hf : findJob s.processing id = some j) (hlt : j.attempts < 3) :
    (failJob s id err true now).1.pending = s.pending ++ [j] ∧
    ((dequeue (failJob s id err true now).1 w now2).2).head? =
      some (modifyJob w now2 j) := by
  have he : failJob s id err true now =
      ({ s with processing := removeFirstById s.processing id,
                pending := s.pending ++ [j] }, true) := by
    rw [failJob, hf]
    dsimp only
    rw [if_pos (by simp [hlt])]
  refine ⟨by rw [he], ?_⟩
  rw [he]
  rw [dequeue_batch]
  show ((((s.pending ++ [j]).reverse).take MAX_JOBS_PER_WORKER).map
    (modifyJob w now2)).head? = _
  rw [List.reverse_append]
  rfl

/-- Witness for C4 on the concrete two-job state. -/
theorem retry_requeue_front_witness :
    (failJob sC4 "b" "e" true 10).1.pending = [jC4a, jC4b] ∧
    ((dequeue (failJob sC4 "b" "e" true 10).1 "w1" 11).2).head? =
      some (modifyJob "w1" 11 jC4b) :=
  retry_requeue_front sC4 "b" "e" 10 jC4b "w1" 11 rfl (by decide)

/-! ### Claim C5 -/

theorem acquireGo_all_fail (avail : Nat → Bool) (h : ∀ i, avail i = false) :
    ∀ (fuel attempts : Nat),
    acquireGo avail attempts fuel =
      { acquiredAt := none, setAttempts := attempts + fuel,
        sleeps := attempts + fuel } := by
  intro fuel
  induction fuel with
  | zero => intro a; simp [acquireGo]
  | succ n ih =>
    intro a
    rw [acquireGo, h a]
    simp only [Bool.false_eq_true, if_false]
    rw [ih (a + 1)]
    have : a + 1 + n = a + (n + 1) := by omega
    rw [this]

/-- C5 (counterexample to the claim as stated): with the default
`maxRetries = 5` and the lock held by another owner throughout, the
`while (attempts < maxRetries)` loop performs exactly 5 `SET NX`
attempts, not `maxRetries + 1 = 6` as the claim states. -/
theorem acquireLock_budget_counterexample :
    (acquireLock DEFAULT_MAX_RETRIES (fun _ => false)).setAttempts = 5 ∧
    ¬ (acquireLock DEFAULT_MAX_RETRIES (fun _ => false)).setAttempts =
        DEFAULT_MAX_RETRIES + 1 := by
  exact ⟨rfl, by decide⟩

/-- C5 (amended): when every conditional store attempt fails,
`acquireLock(key, {ttl, retryDelay, maxRetries})` performs exactly
`maxRetries` store attempts in total, sleeps `retryDelay` after each
failed attempt (`maxRetries` sleeps), never acquires, and returns `null`
rather than raising an error. -/
theorem acquireLock_exhausts (maxRetries : Nat) (avail : Nat → Bool)
    (h : ∀ i, avail i = false) :
    acquireLock maxRetries avail =
      { acquiredAt := none, setAttempts := maxRetries,
        sleeps := maxRetries } := by
  rw [acquireLock, acquireGo_all_fail avail h maxRetries 0]
  simp

/-- Witness for C5 at `maxRetries = 2` with a permanently held lock. -/
theorem acquireLock_exhausts_witness :
    acquireLock 2 (fun _ => false) =
      { acquiredAt := none, setAttempts := 2, sleeps := 2 } :=
  acquireLock_exhausts 2 (fun _ => false) (fun _ => rfl)

/-! ### Lemmas on the multi-key lock loops -/

theorem filter_ne_eq_self_of_any_false (st : LockState) (K : String)
    (h : st.any (fun p => p.1 = K) = false) :
    st.filter (fun p => !(p.1 = K : Bool)) = st := by
  induction st with
  | nil => rfl
  | cons p rest ih =>
    rw [List.any_cons] at h
    have hp : (decide (p.1 = K)) = false := by
      cases hd : (decide (p.1 = K)) with
      | false => rfl
      | true => rw [hd] at h; simp at h
    have hrest : rest.any (fun q => q.1 = K) = false := by
      cases hr : rest.any (fun q => q.1 = K) with
      | false => rfl
      | true => rw [hr] at h; simp at h
    rw [List.filter_cons]
    simp only [hp, Bool.not_false, if_true]
    rw [ih hrest]

theorem wmkAcquire_attempted :
    ∀ (ks : List String) (st : LockState) (tb : Nat),
    (wmkAcquire st tb ks).attempted =
      ks.take (wmkAcquire st tb ks).attempted.length := by
  intro ks
  induction ks with
  | nil => intro st tb; rfl
  | cons k rest ih =>
    intro st tb
    rw [wmkAcquire]
    cases ha : acquireLockS st k tb with
    | none => rfl
    | some st' =>
      simp only []
      rw [List.length_cons, List.take_succ_cons]
      rw [← ih st' (tb + 1)]

theorem wmkAcquire_acquired :
    ∀ (ks : List String) (st : LockState) (tb : Nat),
    (wmkAcquire st tb ks).acquiredKeys =
      ks.take (wmkAcquire st tb ks).acquiredKeys.length := by
  intro ks
  induction ks with
  | nil => intro st tb; rfl
  | cons k rest ih =>
    intro st tb
    rw [wmkAcquire]
    cases ha : acquireLockS st k tb with
    | none => rfl
    | some st' =>
      simp only []
      rw [List.length_cons, List.take_succ_cons]
      rw [← ih st' (tb + 1)]

theorem wmkAcquire_locks_length :
    ∀ (ks : List String) (st : LockState) (tb : Nat),
    (wmkAcquire st tb ks).locks.length =
      (wmkAcquire st tb ks).acquiredKeys.length := by
  intro ks
  induction ks with
  | nil => intro st tb; rfl
  | cons k rest ih =>
    intro st tb
    rw [wmkAcquire]
    cases ha : acquireLockS st k tb with
    | none => rfl
    | some st' =>
      simp only [List.length_cons]
      rw [ih st' (tb + 1)]

theorem wmkRelease_append (l1 l2 : List (String × Nat)) :
    ∀ st : LockState,
    wmkRelease st (l1 ++ l2) =
      ((wmkRelease (wmkRelease st l1).1 l2).1,
       (wmkRelease st l1).2 ++ (wmkRelease (wmkRelease st l1).1 l2).2) := by
  induction l1 with
  | nil => intro st; simp [wmkRelease]
  | cons p rest ih =>
    intro st
    obtain ⟨k, t⟩ := p
    rw [List.cons_append, wmkRelease, wmkRelease]
    simp only []
    rw [ih]
    rfl

/-- Releasing the acquired `(key, token)` pairs in reverse acquisition
order restores the store to exactly its state before the call. -/
theorem wmkAcquire_release :
    ∀ (ks : List String) (st : LockState) (tb : Nat),
    wmkRelease (wmkAcquire st tb ks).state
        (((ks.take (wmkAcquire st tb ks).locks.length).zip
          (wmkAcquire st tb ks).locks).reverse) =
      (st, (wmkAcquire st tb ks).acquiredKeys.reverse) := by
  intro ks
  induction ks with
  | nil => intro st tb; rfl
  | cons k rest ih =>
    intro st tb
    rw [wmkAcquire]
    cases ha : acquireLockS st k tb with
    | none => rfl
    | some st' =>
      simp only [List.length_cons, List.take_succ_cons, List.zip_cons_cons,
        List.reverse_cons]
      rw [wmkRelease_append]
      rw [ih st' (tb + 1)]
      have hrel : wmkRelease st' [(k, tb)] = (st, [k]) := by
        rw [acquireLockS] at ha
        by_cases hany : st.any (fun p => p.1 = lockKey k) = true
        · rw [if_pos hany] at ha; cases ha
        · rw [if_neg hany] at ha
          have hst' : st' = (lockKey k, tb) :: st := by
            cases ha; rfl
          rw [hst']
          show ((releaseLockS ((lockKey k, tb) :: st) k tb).1, [k]) = (st, [k])
          rw [releaseLockS, if_pos (by rw [lookupKV]; simp)]
          show ((((lockKey k, tb) :: st).filter
            (fun p => !(p.1 = lockKey k : Bool))), [k]) = (st, [k])
          congr 1
          rw [List.filter_cons]
          have hhd : (!(((lockKey k, tb).1 = lockKey k) : Bool)) = false := by simp
          rw [hhd]
          simp only [Bool.false_eq_true, if_false]
          exact filter_ne_eq_self_of_any_false st (lockKey k)
            (by cases hx : st.any (fun p => p.1 = lockKey k) with
                | false => rfl
                | true => exact absurd hx hany)
      rw [hrel]

theorem wmkAcquire_ok_iff :
    ∀ (ks : List String) (st : LockState) (tb : Nat),
    ((wmkAcquire st tb ks).locks.length = ks.length ↔
      (wmkAcquire st tb ks).acquiredKeys = ks) := by
  intro ks st tb
  constructor
  · intro hlen
    have h1 := wmkAcquire_acquired ks st tb
    have h2 := wmkAcquire_locks_length ks st tb
    rw [h2] at hlen
    rw [h1, hlen, List.take_length]
  · intro heq
    rw [wmkAcquire_locks_length ks st tb, heq]

/-! ### Claim C6 -/

/-- C6: `withMultipleKeys(keys, fn)` attempts lock acquisition exactly
along a prefix of the lexicographically sorted keys (`sortKeys` is a
sorted permutation of `keys`); `fn` runs iff every sorted key was
acquired; when some acquisition fails the result is `none`; the
`finally` loop releases exactly the acquired locks in reverse acquisition
order, and the lock store is restored to its pre-call state. -/
theorem withMultipleKeys_discipline (st : LockState) (keys : List String)
    (tokBase : Nat) :
    List.Sorted (· ≤ ·) (sortKeys keys) ∧
    (sortKeys keys).Perm keys ∧
    (withMultipleKeys st keys tokBase).attempted =
      (sortKeys keys).take (withMultipleKeys st keys tokBase).attempted.length ∧
    (withMultipleKeys st keys tokBase).acquiredKeys =
      (sortKeys keys).take
        (withMultipleKeys st keys tokBase).acquiredKeys.length ∧
    (withMultipleKeys st keys tokBase).releases =
      (withMultipleKeys st keys tokBase).acquiredKeys.reverse ∧
    ((withMultipleKeys st keys tokBase).ran = true ↔
      (withMultipleKeys st keys tokBase).acquiredKeys = sortKeys keys) ∧
    (withMultipleKeys st keys tokBase).result =
      (if (withMultipleKeys st keys tokBase).ran = true then some ()
       else none) ∧
    (withMultipleKeys st keys tokBase).state = st := by
  have hrel := wmkAcquire_release (sortKeys keys) st tokBase
  refine ⟨?_, ?_, ?_, ?_, ?_, ?_, ?_, ?_⟩
  · exact List.sorted_insertionSort (· ≤ ·) keys
  · exact List.perm_insertionSort (· ≤ ·) keys
  · exact wmkAcquire_attempted (sortKeys keys) st tokBase
  · exact wmkAcquire_acquired (sortKeys keys) st tokBase
  · show (wmkRelease _ _).2 = _
    rw [hrel]
    rfl
  · show (decide _ = true) ↔ _
    rw [decide_eq_true_iff]
    exact wmkAcquire_ok_iff (sortKeys keys) st tokBase
  · rfl
  · show (wmkRelease _ _).1 = st
    rw [hrel]

/-! ### Lemmas on the chunking primitives -/

theorem occursAt_bound {text pat : List Char} {p : Nat}
    (h : occursAt text pat p = true) (hne : 1 ≤ pat.length) :
    p + pat.length ≤ text.length := by
  rw [occursAt, decide_eq_true_iff] at h
  have hlen := congrArg List.length h
  rw [List.length_take, List.length_drop] at hlen
  omega

theorem jsLastIndexOf_occurs {text pat : List Char} {fromIdx : Nat}
    (h : 0 ≤ jsLastIndexOf text pat fromIdx) :
    occursAt text pat (jsLastIndexOf text pat fromIdx).toNat = true := by
  rw [jsLastIndexOf] at h ⊢
  cases hg : ((List.range (fromIdx + 1)).filter (occursAt text pat)).getLast? with
  | none => rw [hg] at h; exact absurd h (by decide)
  | some p =>
    have hmem : p ∈ (List.range (fromIdx + 1)).filter (occursAt text pat) := by
      have hx := List.mem_getLast?_eq_getLast
        (l := (List.range (fromIdx + 1)).filter (occursAt text pat)) (x := p)
        (by rw [hg]; exact Option.mem_some_self p)
      obtain ⟨hne, rfl⟩ := hx
      exact List.getLast_mem hne
    have hocc := (List.mem_filter.mp hmem).2
    simpa using hocc

theorem chunkEndAt_bounds (text : List Char) (i endPos : Nat)
    (h1 : i < endPos) (h2 : endPos ≤ text.length) :
    i < chunkEndAt text i endPos ∧ chunkEndAt text i endPos ≤ text.length := by
  have key : ∀ pat : List Char, pat.length = 2 →
      0 ≤ jsLastIndexOf text pat endPos →
      (jsLastIndexOf text pat endPos).toNat + 2 ≤ text.length := by
    intro pat hpl h0
    have hocc := jsLastIndexOf_occurs h0
    have hb := occursAt_bound hocc (by omega)
    omega
  rw [chunkEndAt]
  by_cases hlt : endPos < text.length
  · rw [if_pos hlt]
    by_cases hpb : jsLastIndexOf text PAT_PARA endPos > (i : Int) ∧
        jsLastIndexOf text PAT_PARA endPos > (endPos : Int) - 200
    · rw [if_pos hpb]
      have h0 : 0 ≤ jsLastIndexOf text PAT_PARA endPos :=
        le_trans (Int.ofNat_nonneg i) (le_of_lt hpb.1)
      have hi' : i < (jsLastIndexOf text PAT_PARA endPos).toNat :=
        Int.lt_toNat.mpr hpb.1
      have hb := key PAT_PARA rfl h0
      exact ⟨by omega, hb⟩
    · rw [if_neg hpb]
      by_cases hsb : sentenceBreak text endPos > (i : Int) ∧
          sentenceBreak text endPos > (endPos : Int) - 100
      · rw [if_pos hsb]
        have h0 : 0 ≤ sentenceBreak text endPos :=
          le_trans (Int.ofNat_nonneg i) (le_of_lt hsb.1)
        have hi' : i < (sentenceBreak text endPos).toNat :=
          Int.lt_toNat.mpr hsb.1
        have hcase : sentenceBreak text endPos =
              jsLastIndexOf text PAT_PERIOD endPos ∨
            sentenceBreak text endPos = jsLastIndexOf text PAT_BANG endPos ∨
            sentenceBreak text endPos = jsLastIndexOf text PAT_QUESTION endPos := by
          rw [sentenceBreak]
          rcases max_choice (jsLastIndexOf text PAT_PERIOD endPos)
            (max (jsLastIndexOf text PAT_BANG endPos)
              (jsLastIndexOf text PAT_QUESTION endPos)) with hm | hm
          · exact Or.inl hm
          · rcases max_choice (jsLastIndexOf text PAT_BANG endPos)
              (jsLastIndexOf text PAT_QUESTION endPos) with hm2 | hm2
            · exact Or.inr (Or.inl (hm.trans hm2))
            · exact Or.inr (Or.inr (hm.trans hm2))
        have hb : (sentenceBreak text endPos).toNat + 2 ≤ text.length := by
          rcases hcase with hc | hc | hc
          · rw [hc] at h0 ⊢
            exact key PAT_PERIOD rfl h0
          · rw [hc] at h0 ⊢
            exact key PAT_BANG rfl h0
          · rw [hc] at h0 ⊢
            exact key PAT_QUESTION rfl h0
        exact ⟨by omega, hb⟩
      · rw [if_neg hsb]
        exact ⟨h1, h2⟩
  · rw [if_neg hlt]
    exact ⟨h1, h2⟩

theorem chunkEnd_bounds (text : List Char) (n i : Nat) (hn : 1 ≤ n)
    (hi : i < text.length) :
    i < chunkEnd text n i ∧ chunkEnd text n i ≤ text.length := by
  rw [chunkEnd]
  exact chunkEndAt_bounds text i _ (lt_min (by omega) hi) (min_le_right _ _)

theorem filterNW_append (a b : List Char) :
    filterNW (a ++ b) = filterNW a ++ filterNW b := by
  rw [filterNW, filterNW, filterNW]
  exact List.filter_append _ _

theorem filterNW_dropWhile (l : List Char) :
    filterNW (l.dropWhile isWS) = filterNW l := by
  induction l with
  | nil => rfl
  | cons c t ih =>
    rw [List.dropWhile_cons]
    by_cases hc : isWS c = true
    · rw [if_pos hc, ih, filterNW, filterNW, List.filter_cons]
      simp [hc]
    · rw [if_neg hc]

theorem filterNW_reverse (l : List Char) :
    filterNW l.reverse = (filterNW l).reverse := by
  rw [filterNW, filterNW]
  exact List.filter_reverse _ l

theorem filterNW_jsTrim (l : List Char) : filterNW (jsTrim l) = filterNW l := by
  rw [jsTrim, filterNW_reverse, filterNW_dropWhile, filterNW_reverse,
    List.reverse_reverse, filterNW_dropWhile]

theorem subChars_append_drop (text : List Char) {i e : Nat} (h : i ≤ e) :
    subChars text i e ++ text.drop e = text.drop i := by
  rw [subChars]
  have hd : text.drop e = (text.drop i).drop (e - i) := by
    rw [List.drop_drop]
    congr 1
    omega
  rw [hd, List.take_append_drop]

theorem createChunksAux_flatten (text : List Char) (n : Nat) (hn : 1 ≤ n) :
    ∀ (fuel i : Nat), text.length - i < fuel →
    filterNW ((createChunksAux text n fuel i).flatten) =
      filterNW (text.drop i) := by
  intro fuel
  induction fuel with
  | zero => intro i h; exact absurd h (by omega)
  | succ fuel ih =>
    intro i h
    rw [createChunksAux]
    by_cases hi : i < text.length
    · rw [if_pos hi]
      obtain ⟨he1, he2⟩ := chunkEnd_bounds text n i hn hi
      rw [List.flatten_cons, filterNW_append, filterNW_jsTrim]
      rw [ih (chunkEnd text n i) (by omega)]
      rw [← filterNW_append, subChars_append_drop text (le_of_lt he1)]
    · rw [if_neg hi]
      rw [List.drop_eq_nil_of_le (by omega)]
      rfl

/-! ### Claim C7 -/

/-- C7: for every text and every positive chunk size, concatenating the
chunks of `createChunks(text, chunkSize)` in order reproduces the
original text up to the whitespace trimmed from each chunk: the
non-whitespace characters, in order, are exactly those of the input. -/
theorem chunk_roundtrip (text : List Char) (n : Nat) (hn : 0 < n) :
    filterNW ((createChunks text n).flatten) = filterNW text := by
  rw [createChunks,
    createChunksAux_flatten text n hn (text.length + 1) 0 (by omega),
    List.drop_zero]

/-- Witness for C7 on a concrete text with a sentence break. -/
theorem chunk_roundtrip_witness :
    0 < 4 ∧ filterNW ((createChunks c7Text 4).flatten) = filterNW c7Text :=
  ⟨by decide, chunk_roundtrip c7Text 4 (by decide)⟩

/-! ### Trim idempotence -/

theorem dropWhile_idem (p : Char → Bool) (l : List Char) :
    (l.dropWhile p).dropWhile p = l.dropWhile p := by
  induction l with
  | nil => rfl
  | cons c t ih =>
    rw [List.dropWhile_cons]
    by_cases hc : p c = true
    · rw [if_pos hc]
      exact ih
    · rw [if_neg hc, List.dropWhile_cons, if_neg hc]

theorem dropWhile_eq_self_of_append (p : Char → Bool) (x y : List Char)
    (h : (x ++ y).dropWhile p = x ++ y) : x.dropWhile p = x := by
  cases x with
  | nil => rfl
  | cons c t =>
    rw [List.cons_append, List.dropWhile_cons] at h
    by_cases hc : p c = true
    · rw [if_pos hc] at h
      have hlen := congrArg List.length h
      rw [List.length_cons] at hlen
      have hle : ((t ++ y).dropWhile p).length ≤ (t ++ y).length :=
        ((List.dropWhile_suffix p).sublist).length_le
      exact absurd hlen (by omega)
    · rw [List.dropWhile_cons, if_neg hc]

/-- The result of `trim` carries no leading whitespace. -/
theorem dropWhile_jsTrim (l : List Char) :
    (jsTrim l).dropWhile isWS = jsTrim l := by
  rw [jsTrim]
  obtain ⟨u, hu⟩ := List.dropWhile_suffix (l := (l.dropWhile isWS).reverse) isWS
  have key : (l.dropWhile isWS).dropWhile isWS = l.dropWhile isWS :=
    dropWhile_idem isWS l
  have hsplit : ((l.dropWhile isWS).reverse.dropWhile isWS).reverse ++ u.reverse
      = l.dropWhile isWS := by
    rw [← List.reverse_append, hu, List.reverse_reverse]
  exact dropWhile_eq_self_of_append isWS _ u.reverse (by rw [hsplit]; exact key)

theorem jsTrim_idem (l : List Char) : jsTrim (jsTrim l) = jsTrim l := by
  rw [show jsTrim (jsTrim l) =
    (((jsTrim l).dropWhile isWS).reverse.dropWhile isWS).reverse from rfl]
  rw [dropWhile_jsTrim]
  rw [jsTrim, List.reverse_reverse]
  rw [dropWhile_idem]

theorem mem_createChunksAux {text : List Char} {n : Nat} {c : List Char} :
    ∀ {fuel i : Nat}, c ∈ createChunksAux text n fuel i →
    ∃ a b, c = jsTrim (subChars text a b) := by
  intro fuel
  induction fuel with
  | zero => intro i h; simp [createChunksAux] at h
  | succ fuel ih =>
    intro i h
    rw [createChunksAux] at h
    by_cases hi : i < text.length
    · rw [if_pos hi] at h
      rcases List.mem_cons.mp h with rfl | hmem
      · exact ⟨i, chunkEnd text n i, rfl⟩
      · exact ih hmem
    · rw [if_neg hi] at h
      simp at h

/-! ### Claim C8 -/

/-- C8 (counterexample to the claim as stated): the whitespace-only text
`" "` produces the chunk array `[""]` — `createChunks` pushes
`substring(i, endPos).trim()` unconditionally (`indexer.ts:147`), so the
empty trailing fragment is NOT dropped and an empty-string chunk is
returned. -/
theorem empty_chunk_counterexample :
    createChunks [' '] 5 = [[]] ∧ [] ∈ createChunks [' '] 5 :=
  ⟨by decide, by decide⟩

/-- C8 (amended): every chunk returned by `createChunks(text, chunkSize)`
is trimmed of leading and trailing whitespace (each chunk is a
`trim`-image, and `trim` is idempotent); empty chunks, however, are kept:
a whitespace-only segment yields an empty-string entry in the array. -/
theorem chunks_trimmed (text : List Char) (n : Nat) (c : List Char)
    (h : c ∈ createChunks text n) : jsTrim c = c := by
  obtain ⟨a, b, rfl⟩ := mem_createChunksAux h
  exact jsTrim_idem _

/-- Witness for C8 on the single chunk of `"ab "`. -/
theorem chunks_trimmed_witness : jsTrim ['a', 'b'] = ['a', 'b'] :=
  chunks_trimmed c8Text 5 ['a', 'b'] (by decide)

/-! ### Claim C10 -/

/-- C10: for an existing batch record and an existing progress record
with a positive `totalChunks`, `completeBatch(jobId, batchId, error)`
with a non-empty error still sets the batch's `completed` flag and
`endTime`, still increments the job's `processedChunks` by
`endIndex - startIndex + 1` and recomputes
`progress = floor(processedChunks / totalChunks * 100)`; the resulting
`processedChunks` and `progress` are exactly those of an error-free
`completeBatch` — a failed batch advances progress like a successful
one. -/
theorem completeBatch_error_progress (st : ProgressState)
    (jobId batchId err : String) (now : Nat) (b : BatchProgress)
    (p : ProgressUpdate) (t : Nat)
    (hb : lookupKV st.batches (getBatchKey jobId batchId) = some b)
    (hp : lookupKV st.progresses (getProgressKey jobId) = some p)
    (ht : p.totalChunks = some t) (ht0 : 0 < t) :
    lookupKV (completeBatch st jobId batchId (some err) now).batches
        (getBatchKey jobId batchId) =
      some { b with
             completed := true, endTime := some now,
             error := some err } ∧
    (∃ q, lookupKV (completeBatch st jobId batchId (some err) now).progresses
        (getProgressKey jobId) = some q ∧
      q.processedChunks =
        some (p.processedChunks.getD 0 + (b.endIndex - b.startIndex + 1)) ∧
      q.progress =
        (p.processedChunks.getD 0 + (b.endIndex - b.startIndex + 1)) * 100 / t ∧
      ∃ q', lookupKV (completeBatch st jobId batchId none now).progresses
          (getProgressKey jobId) = some q' ∧
        q'.processedChunks = q.processedChunks ∧ q'.progress = q.progress) := by
  have hcb : ∀ e' : Option String, completeBatch st jobId batchId e' now =
      incrementProcessedChunks
        { st with batches := (setKV st.batches (getBatchKey jobId batchId)
            { b with completed := true, endTime := some now, error := e' }) }
        jobId (b.endIndex - b.startIndex + 1) now := by
    intro e'
    rw [completeBatch, hb]
  have hinc : ∀ S : ProgressState, S.progresses = st.progresses →
      incrementProcessedChunks S jobId (b.endIndex - b.startIndex + 1) now =
        updateProgress S jobId
          ((p.processedChunks.getD 0 + (b.endIndex - b.startIndex + 1)) * 100 / t)
          (some (p.processedChunks.getD 0 + (b.endIndex - b.startIndex + 1)))
          now := by
    intro S hS
    rw [incrementProcessedChunks, hS, hp]
    dsimp only
    rw [ht]
    dsimp only
    rw [if_pos (by omega : t ≠ 0)]
  have hupd : ∀ (S : ProgressState) (pr : Nat) (d : Option Nat),
      S.progresses = st.progresses →
      ∃ q : ProgressUpdate,
        (updateProgress S jobId pr d now).progresses =
          setKV st.progresses (getProgressKey jobId) q ∧
        (updateProgress S jobId pr d now).batches = S.batches ∧
        q.processedChunks = (match d with
          | some pc => some pc
          | none => p.processedChunks) ∧
        q.progress = pr := by
    intro S pr d hS
    rw [updateProgress, hS, hp]
    dsimp only
    exact ⟨_, rfl, rfl, rfl, rfl⟩
  obtain ⟨q, hq1, hq2, hq3, hq4⟩ := hupd
    { st with batches := (setKV st.batches (getBatchKey jobId batchId)
        { b with completed := true, endTime := some now, error := some err }) }
    ((p.processedChunks.getD 0 + (b.endIndex - b.startIndex + 1)) * 100 / t)
    (some (p.processedChunks.getD 0 + (b.endIndex - b.startIndex + 1)))
    rfl
  obtain ⟨q', hq1', hq2', hq3', hq4'⟩ := hupd
    { st with batches := (setKV st.batches (getBatchKey jobId batchId)
        { b with completed := true, endTime := some now, error := none }) }
    ((p.processedChunks.getD 0 + (b.endIndex - b.startIndex + 1)) * 100 / t)
    (some (p.processedChunks.getD 0 + (b.endIndex - b.startIndex + 1)))
    rfl
  have hfull : ∀ e' : Option String,
      completeBatch st jobId batchId e' now =
        updateProgress
          { st with batches := (setKV st.batches (getBatchKey jobId batchId)
              { b with completed := true, endTime := some now, error := e' }) }
          jobId
          ((p.processedChunks.getD 0 + (b.endIndex - b.startIndex + 1)) * 100 / t)
          (some (p.processedChunks.getD 0 + (b.endIndex - b.startIndex + 1)))
          now :=
    fun e' => (hcb e').trans (hinc _ rfl)
  refine ⟨?_, q, ?_, ?_, ?_, q', ?_, ?_, ?_⟩
  · rw [hfull (some err), hq2]
    exact lookupKV_setKV_self _ _ _
  · rw [hfull (some err), hq1]
    exact lookupKV_setKV_self _ _ _
  · exact hq3
  · exact hq4
  · rw [hfull none, hq1']
    exact lookupKV_setKV_self _ _ _
  · rw [hq3', hq3]
  · rw [hq4', hq4]

/-- Witness for C10 on a concrete 20-chunk job with a 10-chunk batch. -/
theorem completeBatch_error_progress_witness :
    lookupKV (completeBatch wPState "j0" "b0" (some "oops") 200).batches
        (getBatchKey "j0" "b0") =
      some { wBatch with
             completed := true, endTime := some 200,
             error := some "oops" } ∧
    (∃ q, lookupKV (completeBatch wPState "j0" "b0" (some "oops") 200).progresses
        (getProgressKey "j0") = some q ∧
      q.processedChunks =
        some (wProgress.processedChunks.getD 0 +
          (wBatch.endIndex - wBatch.startIndex + 1)) ∧
      q.progress =
        (wProgress.processedChunks.getD 0 +
          (wBatch.endIndex - wBatch.startIndex + 1)) * 100 / 20 ∧
      ∃ q', lookupKV (completeBatch wPState "j0" "b0" none 200).progresses
          (getProgressKey "j0") = some q' ∧
        q'.processedChunks = q.processedChunks ∧ q'.progress = q.progress) :=
  completeBatch_error_progress wPState "j0" "b0" "oops" 200 wBatch wProgress 20
    rfl rfl rfl (by decide)

end VidyaVaani
